import Mathlib

/-!
Verification development for the MOEX data-acquisition and indicator
pipeline (`backend/modules/indicators.py`, `backend/modules/moex_api.py`).

Numeric candle data is embedded with exact rationals (`Rat`) in place of
Python floats; pandas missing values (the shifted previous close on the
first row) are embedded as `Option`.  Python dicts become association
lists that preserve insertion order; network and clock effects become
explicit oracle parameters; file writes become explicit state values.
-/

namespace VKR

/-- One OHLCV candle record `{open, high, low, close, volume}`
(`open` is spelled `open_` because `open` is a Lean keyword). -/
structure OHLCV where
  open_ : Rat
  high : Rat
  low : Rat
  close : Rat
  volume : Rat
deriving DecidableEq, Repr

/-- Per-date output record of `equal_weighted_index`. -/
structure IndexVal where
  open_ : Rat
  high : Rat
  low : Rat
  close : Rat
deriving DecidableEq, Repr

/-- Python `max` over a list of numbers (junk value `0` on the empty list,
where Python would raise; the code only calls it on non-empty lists). -/
def listMax : List Rat → Rat
  | [] => 0
  | x :: xs => xs.foldl max x

/-- The inner `ewi` helper of `equal_weighted_index`:
`max_price = max(prices)`, `weighted = [p * (max_price / p) for p in prices]`,
result `sum(weighted) / len(weighted)`. -/
def ewi (prices : List Rat) : Rat :=
  let max_price := listMax prices
  let weighted := prices.map fun price => price * (max_price / price)
  weighted.sum / (weighted.length : Rat)

/-- Embedding of `equal_weighted_index` (indicators.py:11-61): for each date
with a non-empty ticker map, apply `ewi` to the open/high/low/close columns;
dates with an empty ticker map are skipped. -/
def equal_weighted_index (data : List (String × List (String × OHLCV))) :
    List (String × IndexVal) :=
  data.filterMap fun dt =>
    if dt.2.isEmpty then none
    else some (dt.1,
      { open_ := ewi (dt.2.map fun p => p.2.open_)
        high := ewi (dt.2.map fun p => p.2.high)
        low := ewi (dt.2.map fun p => p.2.low)
        close := ewi (dt.2.map fun p => p.2.close) })

/-- The value `m` is the maximum of the list `l`. -/
def isMaxOf (m : Rat) (l : List Rat) : Prop := m ∈ l ∧ ∀ x ∈ l, x ≤ m

lemma le_foldl_max (xs : List Rat) (a : Rat) : a ≤ xs.foldl max a := by
  induction xs generalizing a with
  | nil => exact le_refl a
  | cons y ys ih =>
    exact le_trans (le_max_left a y) (ih (max a y))

lemma foldl_max_le_of_mem {x : Rat} {xs : List Rat} (a : Rat) (hx : x ∈ xs) :
    x ≤ xs.foldl max a := by
  induction xs generalizing a with
  | nil => cases hx
  | cons y ys ih =>
    rcases List.mem_cons.mp hx with h | h
    · subst h
      exact le_trans (le_max_right a x) (le_foldl_max ys (max a x))
    · exact ih (max a y) h

lemma foldl_max_mem (xs : List Rat) (a : Rat) :
    xs.foldl max a = a ∨ xs.foldl max a ∈ xs := by
  induction xs generalizing a with
  | nil => exact Or.inl rfl
  | cons y ys ih =>
    simp only [List.foldl_cons]
    rcases ih (max a y) with h | h
    · rw [h]
      rcases max_choice a y with hm | hm
      · exact Or.inl hm
      · rw [hm]
        exact Or.inr (List.mem_cons_self y ys)
    · exact Or.inr (List.mem_cons_of_mem y h)

lemma listMax_mem {l : List Rat} (h : l ≠ []) : listMax l ∈ l := by
  cases l with
  | nil => exact absurd rfl h
  | cons x xs =>
    show xs.foldl max x ∈ x :: xs
    rcases foldl_max_mem xs x with h' | h'
    · rw [h']
      exact List.mem_cons_self x xs
    · exact List.mem_cons_of_mem x h'

lemma listMax_ge {l : List Rat} {x : Rat} (hx : x ∈ l) : x ≤ listMax l := by
  cases l with
  | nil => cases hx
  | cons y ys =>
    rcases List.mem_cons.mp hx with h | h
    · exact h ▸ le_foldl_max ys y
    · exact foldl_max_le_of_mem y h

lemma sum_map_const {α : Type} (l : List α) (f : α → Rat) (c : Rat)
    (h : ∀ x ∈ l, f x = c) : (l.map f).sum = (l.length : Rat) * c := by
  induction l with
  | nil => simp
  | cons x xs ih =>
    simp only [List.map_cons, List.sum_cons, List.length_cons]
    rw [h x (List.mem_cons_self x xs), ih (fun y hy => h y (List.mem_cons_of_mem x hy))]
    push_cast
    ring

/-- With non-empty, strictly positive prices, the weighting algebra of `ewi`
collapses to the list maximum: every `p * (max / p)` equals `max`. -/
lemma ewi_eq_listMax {prices : List Rat} (hne : prices ≠ [])
    (hpos : ∀ p ∈ prices, 0 < p) : ewi prices = listMax prices := by
  have hconst : ∀ p ∈ prices, p * (listMax prices / p) = listMax prices := by
    intro p hp
    have hp0 : p ≠ 0 := ne_of_gt (hpos p hp)
    rw [mul_comm, div_mul_cancel₀ _ hp0]
  have hlen0 : (prices.length : Rat) ≠ 0 := by
    have h1 : prices.length ≠ 0 := fun h => hne (List.length_eq_zero.mp h)
    exact_mod_cast h1
  show (prices.map fun price => price * (listMax prices / price)).sum /
      (((prices.map fun price => price * (listMax prices / price)).length : Nat) : Rat)
      = listMax prices
  rw [List.length_map, sum_map_const prices _ (listMax prices) hconst, mul_comm,
    mul_div_assoc, div_self hlen0, mul_one]

lemma ewi_isMax {l : List Rat} (hne : l ≠ []) (hpos : ∀ p ∈ l, 0 < p) :
    isMaxOf (ewi l) l := by
  rw [ewi_eq_listMax hne hpos]
  exact ⟨listMax_mem hne, fun x hx => listMax_ge hx⟩

/-- C1: for every price history with strictly positive OHLC field values,
`equal_weighted_index` returns, for each date with a non-empty ticker map and
independently for each of the four fields open/high/low/close, exactly the
maximum of that field's values across the tickers on that date; and every
output entry stems from a date whose ticker map is non-empty (dates with an
empty ticker map are omitted). -/
theorem equal_weighted_index_max (data : List (String × List (String × OHLCV)))
    (hpos : ∀ dt ∈ data, ∀ p ∈ dt.2,
      0 < p.2.open_ ∧ 0 < p.2.high ∧ 0 < p.2.low ∧ 0 < p.2.close) :
    (∀ dt ∈ data, dt.2 ≠ [] → ∃ iv, (dt.1, iv) ∈ equal_weighted_index data ∧
      isMaxOf iv.open_ (dt.2.map fun p => p.2.open_) ∧
      isMaxOf iv.high (dt.2.map fun p => p.2.high) ∧
      isMaxOf iv.low (dt.2.map fun p => p.2.low) ∧
      isMaxOf iv.close (dt.2.map fun p => p.2.close)) ∧
    (∀ e ∈ equal_weighted_index data, ∃ ts, (e.1, ts) ∈ data ∧ ts ≠ []) := by
  constructor
  · intro dt hdt hne
    have hnotE : ¬ dt.2.isEmpty := by
      simp [List.isEmpty_iff, hne]
    have hmapne : ∀ f : (String × OHLCV) → Rat, dt.2.map f ≠ [] := by
      intro f h
      exact hne (List.map_eq_nil_iff.mp h)
    refine ⟨{ open_ := ewi (dt.2.map fun p => p.2.open_)
              high := ewi (dt.2.map fun p => p.2.high)
              low := ewi (dt.2.map fun p => p.2.low)
              close := ewi (dt.2.map fun p => p.2.close) }, ?_, ?_, ?_, ?_, ?_⟩
    · refine List.mem_filterMap.mpr ⟨dt, hdt, ?_⟩
      simp [hnotE]
    · refine ewi_isMax (hmapne _) ?_
      intro x hx
      rcases List.mem_map.mp hx with ⟨p, hp, hpx⟩
      exact hpx ▸ (hpos dt hdt p hp).1
    · refine ewi_isMax (hmapne _) ?_
      intro x hx
      rcases List.mem_map.mp hx with ⟨p, hp, hpx⟩
      exact hpx ▸ (hpos dt hdt p hp).2.1
    · refine ewi_isMax (hmapne _) ?_
      intro x hx
      rcases List.mem_map.mp hx with ⟨p, hp, hpx⟩
      exact hpx ▸ (hpos dt hdt p hp).2.2.1
    · refine ewi_isMax (hmapne _) ?_
      intro x hx
      rcases List.mem_map.mp hx with ⟨p, hp, hpx⟩
      exact hpx ▸ (hpos dt hdt p hp).2.2.2
  · intro e he
    rcases List.mem_filterMap.mp he with ⟨a, ha, hfa⟩
    by_cases hE : a.2.isEmpty
    · rw [if_pos hE] at hfa
      cases hfa
    · rw [if_neg hE] at hfa
      injection hfa with hfa
      refine ⟨a.2, ?_, ?_⟩
      · have h1 : e.1 = a.1 := by rw [← hfa]
        rw [h1]
        simpa using ha
      · intro h
        exact hE (by simp [h])

/-- Concrete two-ticker, one-date history used to witness C1. -/
def c1data : List (String × List (String × OHLCV)) :=
  [("2025-01-01", [("A", ⟨1, 2, 3, 4, 5⟩), ("B", ⟨2, 3, 1, 2, 6⟩)])]

/-- Witness for C1 at a concrete history. -/
theorem equal_weighted_index_max_witness :
    (∀ dt ∈ c1data, ∀ p ∈ dt.2,
      0 < p.2.open_ ∧ 0 < p.2.high ∧ 0 < p.2.low ∧ 0 < p.2.close) ∧
    ((∀ dt ∈ c1data, dt.2 ≠ [] → ∃ iv, (dt.1, iv) ∈ equal_weighted_index c1data ∧
      isMaxOf iv.open_ (dt.2.map fun p => p.2.open_) ∧
      isMaxOf iv.high (dt.2.map fun p => p.2.high) ∧
      isMaxOf iv.low (dt.2.map fun p => p.2.low) ∧
      isMaxOf iv.close (dt.2.map fun p => p.2.close)) ∧
    (∀ e ∈ equal_weighted_index c1data, ∃ ts, (e.1, ts) ∈ c1data ∧ ts ≠ [])) :=
  ⟨by decide, equal_weighted_index_max c1data (by decide)⟩

/-- One row of the candle dataframe passed to `atr`
(columns `date, open, high, low, close, volume`). -/
structure Candle where
  date : String
  open_ : Rat
  high : Rat
  low : Rat
  close : Rat
  volume : Rat
deriving DecidableEq, Repr

/-- One row of the dataframe returned by `atr`
(columns `date, atr, atr_%, direction`). -/
structure AtrRow where
  date : String
  atr : Rat
  atrPct : Rat
  direction : Int
deriving DecidableEq, Repr

/-- The column `security["close"].shift(1)`: previous close per row, with the
pandas `NaN` on the first row embedded as `none`. -/
def prevCloses (cs : List Candle) : List (Option Rat) :=
  match cs with
  | [] => []
  | _ :: _ => none :: (cs.map fun c => some c.close).dropLast

/-- One row of the true-range computation: `max` over
`high - low`, `|high - prevClose|`, `|low - prevClose|`; on the first row the
previous close is `NaN` and the pandas row-wise `max` skips the two
`NaN` entries, leaving `high - low`. -/
def trueRangeRow (c : Candle) (pc : Option Rat) : Rat :=
  match pc with
  | none => c.high - c.low
  | some p => max (c.high - c.low) (max |c.high - p| |c.low - p|)

/-- The true-range series `tr` of `atr`. -/
def trueRange (cs : List Candle) : List Rat :=
  (cs.zip (prevCloses cs)).map fun cp => trueRangeRow cp.1 cp.2

/-- Embedding of `tr.rolling(period, min_periods=1).mean()`: at index `t`
the mean of the last `min(period, t+1)` values. -/
def rollingMean (period : Nat) (xs : List Rat) : List Rat :=
  (List.range xs.length).map fun t =>
    let w := (xs.take (t + 1)).drop (t + 1 - period)
    w.sum / (w.length : Rat)

/-- One row of the direction computation
`(close - prevClose).apply(lambda x: -1 if x <= 0 else 1)`.  On the first row
`close - NaN` is `NaN`, and the Python comparison `NaN <= 0` is `False`, so
the lambda returns `1` there. -/
def directionRow (c : Candle) (pc : Option Rat) : Int :=
  match pc with
  | none => 1
  | some p => if c.close - p ≤ 0 then -1 else 1

/-- Embedding of `atr` (indicators.py:64-120): true range, its rolling mean
with `min_periods=1`, `atr_% = atr / close * 100`, and the direction column. -/
def atr (security : List Candle) (period : Nat) : List AtrRow :=
  let pcs := prevCloses security
  let atrS := rollingMean period (trueRange security)
  (security.zip (pcs.zip atrS)).map fun x =>
    { date := x.1.date
      atr := x.2.2
      atrPct := x.2.2 / x.1.close * 100
      direction := directionRow x.1 x.2.1 }

lemma prevCloses_length (cs : List Candle) : (prevCloses cs).length = cs.length := by
  cases cs with
  | nil => rfl
  | cons c rest =>
    simp [prevCloses]

lemma trueRange_length (cs : List Candle) : (trueRange cs).length = cs.length := by
  simp [trueRange, prevCloses_length]

lemma rollingMean_length (period : Nat) (xs : List Rat) :
    (rollingMean period xs).length = xs.length := by
  simp [rollingMean]

lemma atr_length (cs : List Candle) (period : Nat) :
    (atr cs period).length = cs.length := by
  simp [atr, prevCloses_length, rollingMean_length, trueRange_length]

lemma prevCloses_get_zero (cs : List Candle) (h : 0 < (prevCloses cs).length) :
    (prevCloses cs).get ⟨0, h⟩ = none := by
  cases cs with
  | nil => simp [prevCloses] at h
  | cons c rest => rfl

lemma prevCloses_get_succ (cs : List Candle) (t : Nat)
    (h : t + 1 < (prevCloses cs).length) (h' : t < cs.length) :
    (prevCloses cs).get ⟨t + 1, h⟩ = some (cs.get ⟨t, h'⟩).close := by
  cases cs with
  | nil => simp [prevCloses] at h
  | cons c rest =>
    have hlen : t < ((c :: rest).map fun x => some x.close).dropLast.length := by
      rw [prevCloses_length] at h
      simp only [List.length_dropLast, List.length_map]
      omega
    show (((c :: rest).map fun x => some x.close).dropLast.get ⟨t, hlen⟩)
        = some ((c :: rest).get ⟨t, h'⟩).close
    rw [List.get_eq_getElem, List.get_eq_getElem, List.getElem_dropLast,
      List.getElem_map]

lemma drop_take_succ (xs : List Rat) (t : Nat) (h : t < xs.length) :
    (xs.take (t + 1)).drop t = [xs.get ⟨t, h⟩] := by
  induction xs generalizing t with
  | nil => simp at h
  | cons x rest ih =>
    cases t with
    | zero => simp
    | succ s =>
      have hs : s < rest.length := by simpa using h
      simpa using ih s hs

lemma rollingMean_one_get (xs : List Rat) (t : Nat)
    (h : t < (rollingMean 1 xs).length) (h' : t < xs.length) :
    (rollingMean 1 xs).get ⟨t, h⟩ = xs.get ⟨t, h'⟩ := by
  simp only [rollingMean, List.get_eq_getElem, List.getElem_map, List.getElem_range,
    Nat.add_sub_cancel]
  rw [drop_take_succ xs t h']
  simp

lemma trueRange_get (cs : List Candle) (t : Nat) (h : t < (trueRange cs).length)
    (hc : t < cs.length) (hp : t < (prevCloses cs).length) :
    (trueRange cs).get ⟨t, h⟩ =
      trueRangeRow (cs.get ⟨t, hc⟩) ((prevCloses cs).get ⟨t, hp⟩) := by
  simp only [trueRange, List.get_eq_getElem, List.getElem_map, List.getElem_zip]

lemma atr_get (cs : List Candle) (period : Nat) (t : Nat)
    (h : t < (atr cs period).length) (hc : t < cs.length)
    (hp : t < (prevCloses cs).length)
    (ha : t < (rollingMean period (trueRange cs)).length) :
    (atr cs period).get ⟨t, h⟩ =
      { date := (cs.get ⟨t, hc⟩).date
        atr := (rollingMean period (trueRange cs)).get ⟨t, ha⟩
        atrPct := (rollingMean period (trueRange cs)).get ⟨t, ha⟩
          / (cs.get ⟨t, hc⟩).close * 100
        direction := directionRow (cs.get ⟨t, hc⟩) ((prevCloses cs).get ⟨t, hp⟩) } := by
  simp only [atr, List.get_eq_getElem, List.getElem_map, List.getElem_zip]

/-- C2: with `period = 1`, the `atr` column is exactly the true range: at
`t = 0` it is `high[0] - low[0]` (the previous close is missing there and the
row-wise max ignores the NaN terms), and at every `t > 0` it is
`max(high[t]-low[t], |high[t]-prevClose[t]|, |low[t]-prevClose[t]|)`. -/
theorem atr_period_one_trueRange (cs : List Candle) (t : Nat) (ht : t < cs.length) :
    ∀ hr : t < (atr cs 1).length,
      (t = 0 → ((atr cs 1).get ⟨t, hr⟩).atr =
        (cs.get ⟨t, ht⟩).high - (cs.get ⟨t, ht⟩).low) ∧
      (0 < t → ((atr cs 1).get ⟨t, hr⟩).atr =
        max ((cs.get ⟨t, ht⟩).high - (cs.get ⟨t, ht⟩).low)
          (max |(cs.get ⟨t, ht⟩).high -
                  (cs.get ⟨t - 1, Nat.lt_of_le_of_lt (Nat.sub_le t 1) ht⟩).close|
               |(cs.get ⟨t, ht⟩).low -
                  (cs.get ⟨t - 1, Nat.lt_of_le_of_lt (Nat.sub_le t 1) ht⟩).close|)) := by
  intro hr
  have hp : t < (prevCloses cs).length := by
    rw [prevCloses_length]
    exact ht
  have ha : t < (rollingMean 1 (trueRange cs)).length := by
    rw [rollingMean_length, trueRange_length]
    exact ht
  have htr : t < (trueRange cs).length := by
    rw [trueRange_length]
    exact ht
  rw [atr_get cs 1 t hr ht hp ha]
  have hatr : (rollingMean 1 (trueRange cs)).get ⟨t, ha⟩ =
      trueRangeRow (cs.get ⟨t, ht⟩) ((prevCloses cs).get ⟨t, hp⟩) := by
    rw [rollingMean_one_get (trueRange cs) t ha htr, trueRange_get cs t htr ht hp]
  constructor
  · intro h0
    subst h0
    rw [show ((⟨0, ht⟩ : Fin cs.length) : Fin cs.length) = ⟨0, ht⟩ from rfl] at *
    simp only [hatr, prevCloses_get_zero cs hp, trueRangeRow]
  · intro ht0
    obtain ⟨s, hs⟩ : ∃ s, t = s + 1 := ⟨t - 1, by omega⟩
    subst hs
    have hs' : s < cs.length := by omega
    simp only [hatr, prevCloses_get_succ cs s hp hs', trueRangeRow,
      Nat.add_sub_cancel]

/-- C3: the `direction` column of `atr` takes only the values `-1` and `+1`,
never `0`; for every `t > 0`, equal adjacent closes give `-1`, and the value
is `+1` exactly when `close[t] > close[t-1]`. -/
theorem atr_direction_two_valued (cs : List Candle) (period : Nat) :
    (∀ r ∈ atr cs period, r.direction = -1 ∨ r.direction = 1) ∧
    (∀ t, ∀ ht : t < cs.length, ∀ hr : t < (atr cs period).length, 0 < t →
      ((cs.get ⟨t, ht⟩).close =
          (cs.get ⟨t - 1, Nat.lt_of_le_of_lt (Nat.sub_le t 1) ht⟩).close →
        ((atr cs period).get ⟨t, hr⟩).direction = -1) ∧
      (((atr cs period).get ⟨t, hr⟩).direction = 1 ↔
        (cs.get ⟨t - 1, Nat.lt_of_le_of_lt (Nat.sub_le t 1) ht⟩).close <
          (cs.get ⟨t, ht⟩).close)) := by
  constructor
  · intro r hr
    rcases List.mem_map.mp hr with ⟨x, hx, hxr⟩
    have : r.direction = directionRow x.1 x.2.1 := by rw [← hxr]
    rw [this]
    cases hpc : x.2.1 with
    | none => exact Or.inr rfl
    | some p =>
      simp only [directionRow]
      split
      · exact Or.inl rfl
      · exact Or.inr rfl
  · intro t ht hr ht0
    have hp : t < (prevCloses cs).length := by
      rw [prevCloses_length]
      exact ht
    have ha : t < (rollingMean period (trueRange cs)).length := by
      rw [rollingMean_length, trueRange_length]
      exact ht
    rw [atr_get cs period t hr ht hp ha]
    obtain ⟨s, hs⟩ : ∃ s, t = s + 1 := ⟨t - 1, by omega⟩
    subst hs
    have hs' : s < cs.length := by omega
    simp only [prevCloses_get_succ cs s hp hs', directionRow, Nat.add_sub_cancel]
    constructor
    · intro heq
      rw [if_pos (by rw [heq, sub_self])]
    · constructor
      · intro h1
        by_contra hlt
        rw [if_pos (by push_neg at hlt; linarith)] at h1
        exact absurd h1 (by decide)
      · intro hlt
        rw [if_neg (by intro hle; linarith)]

/-- Concrete two-row candle series used to witness C2 and C3. -/
def c2data : List Candle :=
  [⟨"2025-01-01", 1, 10, 2, 5, 100⟩, ⟨"2025-01-02", 2, 12, 3, 7, 200⟩]

/-- Witness for C2 at a concrete two-row series and `t = 1`. -/
theorem atr_period_one_trueRange_witness :
    1 < c2data.length ∧ 1 < (atr c2data 1).length ∧
    (((1 : Nat) = 0 → ((atr c2data 1).get ⟨1, by decide⟩).atr =
        (c2data.get ⟨1, by decide⟩).high - (c2data.get ⟨1, by decide⟩).low) ∧
     (0 < 1 → ((atr c2data 1).get ⟨1, by decide⟩).atr =
        max ((c2data.get ⟨1, by decide⟩).high - (c2data.get ⟨1, by decide⟩).low)
          (max |(c2data.get ⟨1, by decide⟩).high - (c2data.get ⟨0, by decide⟩).close|
               |(c2data.get ⟨1, by decide⟩).low - (c2data.get ⟨0, by decide⟩).close|))) :=
  ⟨by decide, by decide,
    atr_period_one_trueRange c2data 1 (by decide) (by decide)⟩

/-- Witness for C3 at a concrete two-row series. -/
theorem atr_direction_two_valued_witness :
    (((atr c2data 1).get ⟨0, by decide⟩).direction = -1 ∨
      ((atr c2data 1).get ⟨0, by decide⟩).direction = 1) ∧
    ((c2data.get ⟨1, by decide⟩).close = (c2data.get ⟨0, by decide⟩).close →
      ((atr c2data 1).get ⟨1, by decide⟩).direction = -1) ∧
    (((atr c2data 1).get ⟨1, by decide⟩).direction = 1 ↔
      (c2data.get ⟨0, by decide⟩).close < (c2data.get ⟨1, by decide⟩).close) :=
  ⟨(atr_direction_two_valued c2data 1).1 _ (List.get_mem _ _ _),
   ((atr_direction_two_valued c2data 1).2 1 (by decide) (by decide) (by decide)).1,
   ((atr_direction_two_valued c2data 1).2 1 (by decide) (by decide) (by decide)).2⟩

/-- One row of the index-membership cache table `moex_list`
(columns `date, date_from, ticker`; `none` is a parquet null). -/
structure LRow where
  date : Option String
  date_from : Option String
  ticker : Option String
deriving DecidableEq, Repr

/-- The `drop_duplicates` key `subset=["date", "ticker"]`. -/
def lkey (r : LRow) : Option String × Option String := (r.date, r.ticker)

/-- Embedding of `drop_duplicates(subset=["date", "ticker"], keep="first")`,
with an accumulator of already-seen keys. -/
def dropDupFirst (seen : List (Option String × Option String)) :
    List LRow → List LRow
  | [] => []
  | r :: rs =>
    if lkey r ∈ seen then dropDupFirst seen rs
    else r :: dropDupFirst (lkey r :: seen) rs

/-- Embedding of `.dropna()`: keep rows with no null field. -/
def dropna (rows : List LRow) : List LRow :=
  rows.filter fun r => r.date.isSome && r.date_from.isSome && r.ticker.isSome

/-- Embedding of `_save_moex_list` (moex_api.py:73-123): build one row per
ticker; if the cache file does not exist yet the new rows are stored as-is,
otherwise they are appended to the stored table, deduplicated on
`(date, ticker)` keeping the first occurrence, and null rows are dropped. -/
def save_moex_list (fileExists : Bool) (table : List LRow)
    (date date_from : String) (tickers : List String) : List LRow :=
  let df := tickers.map fun t => ⟨some date, some date_from, some t⟩
  if fileExists then dropna (dropDupFirst [] (table ++ df))
  else df

lemma dropDupFirst_subset {seen : List (Option String × Option String)}
    {l : List LRow} {r : LRow} (h : r ∈ dropDupFirst seen l) : r ∈ l := by
  induction l generalizing seen with
  | nil => cases h
  | cons x xs ih =>
    by_cases hk : lkey x ∈ seen
    · rw [dropDupFirst, if_pos hk] at h
      exact List.mem_cons_of_mem x (ih h)
    · rw [dropDupFirst, if_neg hk] at h
      rcases List.mem_cons.mp h with h' | h'
      · exact h' ▸ List.mem_cons_self x xs
      · exact List.mem_cons_of_mem x (ih h')

lemma dropDupFirst_key_mem {seen : List (Option String × Option String)}
    {l : List LRow} {k : Option String × Option String}
    (hk : k ∉ seen) (hex : ∃ r ∈ l, lkey r = k) :
    ∃ r ∈ dropDupFirst seen l, lkey r = k := by
  induction l generalizing seen with
  | nil =>
    rcases hex with ⟨r, hr, _⟩
    cases hr
  | cons x xs ih =>
    rcases hex with ⟨r, hr, hrk⟩
    by_cases hx : lkey x ∈ seen
    · rw [dropDupFirst, if_pos hx]
      rcases List.mem_cons.mp hr with h' | h'
      · exact absurd (by rw [← hrk, h']; exact hx) hk
      · exact ih hk ⟨r, h', hrk⟩
    · rw [dropDupFirst, if_neg hx]
      by_cases hxk : lkey x = k
      · exact ⟨x, List.mem_cons_self _ _, hxk⟩
      · have hk' : k ∉ lkey x :: seen := by
          intro h
          rcases List.mem_cons.mp h with h' | h'
          · exact hxk h'.symm
          · exact hk h'
        rcases List.mem_cons.mp hr with h' | h'
        · exact absurd (h' ▸ hrk) hxk
        · rcases ih hk' ⟨r, h', hrk⟩ with ⟨r', hr', hr'k⟩
          exact ⟨r', List.mem_cons_of_mem x hr', hr'k⟩

lemma dropDupFirst_nil_of_seen {seen : List (Option String × Option String)}
    {l : List LRow} (h : ∀ r ∈ l, lkey r ∈ seen) : dropDupFirst seen l = [] := by
  induction l with
  | nil => rfl
  | cons x xs ih =>
    rw [dropDupFirst, if_pos (h x (List.mem_cons_self x xs))]
    exact ih fun r hr => h r (List.mem_cons_of_mem x hr)

lemma dropDupFirst_append_subsumed {seen : List (Option String × Option String)}
    {xs ys : List LRow}
    (h : ∀ y ∈ ys, lkey y ∈ seen ∨ ∃ r ∈ dropDupFirst seen xs, lkey r = lkey y) :
    dropDupFirst seen (xs ++ ys) = dropDupFirst seen xs := by
  induction xs generalizing seen with
  | nil =>
    simp only [List.nil_append, dropDupFirst]
    refine dropDupFirst_nil_of_seen fun y hy => ?_
    rcases h y hy with h' | ⟨r, hr, _⟩
    · exact h'
    · cases hr
  | cons x xs ih =>
    by_cases hx : lkey x ∈ seen
    · rw [List.cons_append, dropDupFirst, if_pos hx, dropDupFirst, if_pos hx]
      refine ih fun y hy => ?_
      rcases h y hy with h' | ⟨r, hr, hrk⟩
      · exact Or.inl h'
      · rw [dropDupFirst, if_pos hx] at hr
        exact Or.inr ⟨r, hr, hrk⟩
    · rw [List.cons_append, dropDupFirst, if_neg hx, dropDupFirst, if_neg hx]
      congr 1
      refine ih fun y hy => ?_
      rcases h y hy with h' | ⟨r, hr, hrk⟩
      · exact Or.inl (List.mem_cons_of_mem _ h')
      · rw [dropDupFirst, if_neg hx] at hr
        rcases List.mem_cons.mp hr with h' | h'
        · exact Or.inl (h' ▸ hrk ▸ List.mem_cons_self _ _)
        · exact Or.inr ⟨r, h', hrk⟩

lemma dropDupFirst_keys_fresh {seen : List (Option String × Option String)}
    {l : List LRow} {r : LRow} (h : r ∈ dropDupFirst seen l) : lkey r ∉ seen := by
  induction l generalizing seen with
  | nil => cases h
  | cons x xs ih =>
    by_cases hx : lkey x ∈ seen
    · rw [dropDupFirst, if_pos hx] at h
      exact ih h
    · rw [dropDupFirst, if_neg hx] at h
      rcases List.mem_cons.mp h with h' | h'
      · exact h' ▸ hx
      · intro hmem
        exact ih h' (List.mem_cons_of_mem _ hmem)

lemma dropDupFirst_pairwise (seen : List (Option String × Option String))
    (l : List LRow) :
    (dropDupFirst seen l).Pairwise fun a b => lkey a ≠ lkey b := by
  induction l generalizing seen with
  | nil => exact List.Pairwise.nil
  | cons x xs ih =>
    by_cases hx : lkey x ∈ seen
    · rw [dropDupFirst, if_pos hx]
      exact ih seen
    · rw [dropDupFirst, if_neg hx]
      refine List.Pairwise.cons ?_ (ih (lkey x :: seen))
      intro b hb hxb
      exact dropDupFirst_keys_fresh hb (hxb ▸ List.mem_cons_self _ _)

lemma dropDupFirst_eq_self {seen : List (Option String × Option String)}
    {l : List LRow} (hnd : l.Pairwise fun a b => lkey a ≠ lkey b)
    (hfresh : ∀ r ∈ l, lkey r ∉ seen) : dropDupFirst seen l = l := by
  induction l generalizing seen with
  | nil => rfl
  | cons x xs ih =>
    rw [dropDupFirst, if_neg (hfresh x (List.mem_cons_self x xs))]
    congr 1
    refine ih (List.pairwise_cons.mp hnd).2 fun r hr => ?_
    intro hmem
    rcases List.mem_cons.mp hmem with h' | h'
    · exact (List.pairwise_cons.mp hnd).1 r hr h'.symm
    · exact hfresh r (List.mem_cons_of_mem x hr) h'

lemma dropna_eq_self {l : List LRow}
    (h : ∀ r ∈ l, r.date.isSome ∧ r.date_from.isSome ∧ r.ticker.isSome) :
    dropna l = l := by
  refine List.filter_eq_self.mpr fun r hr => ?_
  rcases h r hr with ⟨h1, h2, h3⟩
  simp [h1, h2, h3]

lemma save_moex_list_twice_eq (table : List LRow) (date date_from : String)
    (tickers : List String)
    (hnn : ∀ r ∈ table, r.date.isSome ∧ r.date_from.isSome ∧ r.ticker.isSome) :
    save_moex_list true (save_moex_list true table date date_from tickers)
        date date_from tickers
      = save_moex_list true table date date_from tickers := by
  have hnnall : ∀ r ∈ table ++ (tickers.map fun t =>
      (⟨some date, some date_from, some t⟩ : LRow)),
      r.date.isSome ∧ r.date_from.isSome ∧ r.ticker.isSome := by
    intro r hr
    rcases List.mem_append.mp hr with h | h
    · exact hnn r h
    · rcases List.mem_map.mp h with ⟨t, ht, rfl⟩
      exact ⟨rfl, rfl, rfl⟩
  have honce : save_moex_list true table date date_from tickers
      = dropDupFirst [] (table ++ (tickers.map fun t =>
          (⟨some date, some date_from, some t⟩ : LRow))) := by
    show dropna _ = _
    exact dropna_eq_self fun r hr => hnnall r (dropDupFirst_subset hr)
  have hsub : ∀ y ∈ (tickers.map fun t =>
      (⟨some date, some date_from, some t⟩ : LRow)),
      lkey y ∈ ([] : List (Option String × Option String)) ∨
      ∃ r ∈ dropDupFirst [] (table ++ (tickers.map fun t =>
        (⟨some date, some date_from, some t⟩ : LRow))), lkey r = lkey y := by
    intro y hy
    refine Or.inr (dropDupFirst_key_mem (by simp) ⟨y, ?_, rfl⟩)
    exact List.mem_append.mpr (Or.inr hy)
  have hDD : dropDupFirst [] (dropDupFirst [] (table ++ (tickers.map fun t =>
        (⟨some date, some date_from, some t⟩ : LRow))))
      = dropDupFirst [] (table ++ (tickers.map fun t =>
        (⟨some date, some date_from, some t⟩ : LRow))) :=
    dropDupFirst_eq_self (dropDupFirst_pairwise _ _) (fun r _ => by simp)
  have hsub2 : ∀ y ∈ (tickers.map fun t =>
      (⟨some date, some date_from, some t⟩ : LRow)),
      lkey y ∈ ([] : List (Option String × Option String)) ∨
      ∃ r ∈ dropDupFirst [] (dropDupFirst [] (table ++ (tickers.map fun t =>
        (⟨some date, some date_from, some t⟩ : LRow)))), lkey r = lkey y := by
    intro y hy
    rcases hsub y hy with h | ⟨r, hr, hrk⟩
    · exact Or.inl h
    · refine Or.inr ⟨r, ?_, hrk⟩
      rw [hDD]
      exact hr
  have hD : dropDupFirst [] ((dropDupFirst [] (table ++ (tickers.map fun t =>
        (⟨some date, some date_from, some t⟩ : LRow)))) ++ (tickers.map fun t =>
        (⟨some date, some date_from, some t⟩ : LRow)))
      = dropDupFirst [] (table ++ (tickers.map fun t =>
        (⟨some date, some date_from, some t⟩ : LRow))) := by
    rw [dropDupFirst_append_subsumed hsub2, hDD]
  calc save_moex_list true (save_moex_list true table date date_from tickers)
          date date_from tickers
      = dropna (dropDupFirst [] ((save_moex_list true table date date_from tickers)
          ++ (tickers.map fun t => (⟨some date, some date_from, some t⟩ : LRow)))) := rfl
    _ = save_moex_list true table date date_from tickers := by
        rw [honce, hD, ← honce]
        show dropna (save_moex_list true table date date_from tickers) = _
        rw [honce]
        exact dropna_eq_self fun r hr => hnnall r (dropDupFirst_subset hr)

/-- C4: with the cache file already existing and every stored field non-null,
writing the same `(date, tickers)` pair to the index-membership cache twice in
succession yields a stored table with exactly the same row count as writing it
once (the second write adds no duplicate `(date, ticker)` rows). -/
theorem save_moex_list_idempotent_rowcount (table : List LRow)
    (date date_from : String) (tickers : List String)
    (hnn : ∀ r ∈ table, r.date.isSome ∧ r.date_from.isSome ∧ r.ticker.isSome) :
    (save_moex_list true (save_moex_list true table date date_from tickers)
        date date_from tickers).length
      = (save_moex_list true table date date_from tickers).length := by
  rw [save_moex_list_twice_eq table date date_from tickers hnn]

/-- Concrete one-row stored table used to witness C4. -/
def c4table : List LRow := [⟨some "2025-01-09", some "2025-01-08", some "SBER"⟩]

/-- Witness for C4 at a concrete stored table and ticker list. -/
theorem save_moex_list_idempotent_rowcount_witness :
    (∀ r ∈ c4table, r.date.isSome ∧ r.date_from.isSome ∧ r.ticker.isSome) ∧
    (save_moex_list true (save_moex_list true c4table "2025-01-09" "2025-01-08"
        ["SBER", "GAZP"]) "2025-01-09" "2025-01-08" ["SBER", "GAZP"]).length
      = (save_moex_list true c4table "2025-01-09" "2025-01-08"
        ["SBER", "GAZP"]).length :=
  ⟨by decide,
   save_moex_list_idempotent_rowcount c4table "2025-01-09" "2025-01-08"
     ["SBER", "GAZP"] (by decide)⟩

/-- Python dict union `res | {k: v}`: replace the value when the key is
present, otherwise append the new pair at the end. -/
def updAssoc (res : List (Int × List (String × OHLCV))) (k : Int)
    (v : List (String × OHLCV)) : List (Int × List (String × OHLCV)) :=
  if res.any fun p => p.1 = k then
    res.map fun p => if p.1 = k then (k, v) else p
  else res ++ [(k, v)]

/-- The `while len(res) <= days_back and try_cnt > 0` loop of
`load_available_history_imoex_list_with_prices_to` (moex_api.py:530-544),
with `load_imoex_list_with_prices` abstracted as the oracle `fetch` from a
day (dates are embedded as day numbers) to that day's ticker map.  Returns
the accumulated result together with the remaining retry budget. -/
def collectLoop (fetch : Int → List (String × OHLCV)) (days_back : Nat) :
    Nat → Int → List (Int × List (String × OHLCV)) →
    List (Int × List (String × OHLCV)) × Nat
  | 0, _, res => (res, 0)
  | try_cnt + 1, date, res =>
    if res.length ≤ days_back then
      collectLoop fetch days_back try_cnt (date - 1)
        (if (fetch date).length ≠ 0 then updAssoc res date (fetch date) else res)
    else (res, try_cnt + 1)

/-- Embedding of `load_available_history_imoex_list_with_prices_to`
(moex_api.py:496-547): run the collection loop with retry budget
`30 + days_back` starting from the (already normalized) date, starting from
an empty result.  The function is structurally recursive on the budget, so
it terminates on every input. -/
def load_available_history_imoex_list_with_prices_to
    (fetch : Int → List (String × OHLCV)) (date : Int) (days_back : Nat) :
    List (Int × List (String × OHLCV)) × Nat :=
  collectLoop fetch days_back (30 + days_back) date []

lemma collectLoop_budget (fetch : Int → List (String × OHLCV)) (days_back : Nat)
    (cnt : Nat) :
    ∀ (date : Int) (res : List (Int × List (String × OHLCV))),
      days_back + 1 ≤ (collectLoop fetch days_back cnt date res).1.length ∨
      (collectLoop fetch days_back cnt date res).2 = 0 := by
  induction cnt with
  | zero => exact fun date res => Or.inr rfl
  | succ c ih =>
    intro date res
    rw [collectLoop]
    by_cases h : res.length ≤ days_back
    · rw [if_pos h]
      exact ih (date - 1) _
    · rw [if_neg h]
      refine Or.inl ?_
      show days_back + 1 ≤ res.length
      omega

/-- C5: `load_available_history_imoex_list_with_prices_to` terminates (it is
a total function of the retry budget) and on return either the result holds
at least `days_back + 1` dated entries, or the retry budget of
`30 + days_back` calendar-day iterations has been fully consumed (no budget
remains); it never returns fewer entries while budget remains. -/
theorem load_available_history_budget (fetch : Int → List (String × OHLCV))
    (date : Int) (days_back : Nat) :
    days_back + 1 ≤
        (load_available_history_imoex_list_with_prices_to fetch date days_back).1.length ∨
      (load_available_history_imoex_list_with_prices_to fetch date days_back).2 = 0 :=
  collectLoop_budget fetch days_back (30 + days_back) date []

/-- Microseconds per calendar day; Python `datetime` values are embedded as
integer microsecond timestamps, so `timedelta(days=1)` is `oneDay`. -/
def oneDay : Int := 86400000000

/-- Day index of a timestamp (what `date.strftime("%Y-%m-%d")` exposes):
floor division by the day length. -/
def dayOf (t : Int) : Int := Int.fdiv t oneDay

/-- Embedding of `_format_date` (moex_api.py:43-70) on well-formed inputs:
`none` is the empty string and yields the current clock reading
`datetime.today()` (a full timestamp, time of day included); a parsed
`YYYY-MM-DD` string is a midnight timestamp `d` and yields `min(d, today)`.
Malformed inputs raise and are outside this embedding. -/
def format_date (now : Int) (date : Option Int) : Int :=
  match date with
  | none => now
  | some d => min d now

/-- The per-day membership lookup inside the `load_imoex_list` search loop:
use the cache table if the cache file exists and has rows for the day,
otherwise call the network (`get_index_data`) for that day. -/
def membershipLookup (cacheLoaded : Bool) (cacheHas : Int → Bool)
    (cacheGet fetchIdx : Int → List String) (day : Int) : List String :=
  if cacheLoaded && cacheHas day then cacheGet day else fetchIdx day

/-- The `while try_cnt > 0 and len(imoex_index) == 0` search loop of
`load_imoex_list` (moex_api.py:348-369): look up the current date's
membership; while it is empty, step one calendar day back and consume one
unit of the budget.  Returns the final date together with the tickers. -/
def resolveLoop (lookup : Int → List String) : Nat → Int → Int × List String
  | 0, date => (date, [])
  | c + 1, date =>
    if (lookup (dayOf date)).length = 0 then resolveLoop lookup c (date - oneDay)
    else (date, lookup (dayOf date))

/-- Observable outcome of `load_imoex_list`: the resolved day and tickers
(the returned dict `{date: tickers}`), the first date the search loop
examined, and the list of `_save_moex_list` calls performed, each recorded
as (raw requested date, resolved day, tickers). -/
structure MembershipResult where
  resolvedDay : Int
  firstTriedDate : Int
  tickers : List String
  saveCalls : List (Option Int × Int × List String)
deriving DecidableEq, Repr

/-- Embedding of `load_imoex_list` (moex_api.py:315-373).  `now1` is the
clock reading taken inside `_format_date`; `now2` is the separate reading
taken by the `if date == datetime.today()` step-back check (Python calls
`datetime.today()` twice, so the two timestamps are distinct clock reads).
The final `_save_moex_list(start_date, date.strftime(...), imoex_index)`
call is unconditional in the source, so `saveCalls` always has one entry. -/
def load_imoex_list (cacheLoaded : Bool) (cacheHas : Int → Bool)
    (cacheGet fetchIdx : Int → List String) (now1 now2 : Int)
    (input : Option Int) : MembershipResult :=
  let date0 := format_date now1 input
  let date1 := if date0 = now2 then date0 - oneDay else date0
  let r := resolveLoop (membershipLookup cacheLoaded cacheHas cacheGet fetchIdx)
    30 date1
  { resolvedDay := dayOf r.1
    firstTriedDate := date1
    tickers := r.2
    saveCalls := [(input, dayOf r.1, r.2)] }

/-- C6 counterexample: with an empty cache and a network oracle that never
returns constituents, `load_imoex_list` resolves to the empty ticker list
yet still performs a cache write (`_save_moex_list` is called
unconditionally at moex_api.py:371), refuting the claim that an empty
resolution performs no cache write. -/
theorem load_imoex_list_empty_still_writes :
    (load_imoex_list false (fun _ => false) (fun _ => []) (fun _ => [])
        0 1 none).tickers = [] ∧
    (load_imoex_list false (fun _ => false) (fun _ => []) (fun _ => [])
        0 1 none).saveCalls ≠ [] := by
  constructor
  · rfl
  · intro h
    cases h

/-- C6 amended: after `load_imoex_list` completes, the result is always
persisted by exactly one cache write carrying the resolved ticker list,
including when the resolution is empty; an empty resolution's write appends
no rows, so on a stored table that is deduplicated on `(date, ticker)` and
null-free the written table is unchanged. -/
theorem load_imoex_list_always_writes (cacheLoaded : Bool)
    (cacheHas : Int → Bool) (cacheGet fetchIdx : Int → List String)
    (now1 now2 : Int) (input : Option Int) :
    (load_imoex_list cacheLoaded cacheHas cacheGet fetchIdx now1 now2
        input).saveCalls
      = [(input,
          (load_imoex_list cacheLoaded cacheHas cacheGet fetchIdx now1 now2
            input).resolvedDay,
          (load_imoex_list cacheLoaded cacheHas cacheGet fetchIdx now1 now2
            input).tickers)] ∧
    (∀ (table : List LRow) (d df : String),
      (∀ r ∈ table, r.date.isSome ∧ r.date_from.isSome ∧ r.ticker.isSome) →
      table.Pairwise (fun a b => lkey a ≠ lkey b) →
      save_moex_list true table d df [] = table) := by
  constructor
  · rfl
  · intro table d df hnn hdup
    show dropna (dropDupFirst [] (table ++ [])) = table
    rw [List.append_nil, dropDupFirst_eq_self hdup (fun r _ => by simp)]
    exact dropna_eq_self hnn

/-- Witness for the amended C6 at concrete oracles and a concrete table. -/
theorem load_imoex_list_always_writes_witness :
    (load_imoex_list false (fun _ => false) (fun _ => []) (fun _ => [])
        0 1 none).saveCalls
      = [(none,
          (load_imoex_list false (fun _ => false) (fun _ => []) (fun _ => [])
            0 1 none).resolvedDay,
          (load_imoex_list false (fun _ => false) (fun _ => []) (fun _ => [])
            0 1 none).tickers)] ∧
    ((∀ r ∈ c4table, r.date.isSome ∧ r.date_from.isSome ∧ r.ticker.isSome) ∧
     c4table.Pairwise (fun a b => lkey a ≠ lkey b) ∧
     save_moex_list true c4table "2025-01-09" "2025-01-08" [] = c4table) :=
  ⟨(load_imoex_list_always_writes false (fun _ => false) (fun _ => [])
      (fun _ => []) 0 1 none).1,
   by decide,
   by decide,
   (load_imoex_list_always_writes false (fun _ => false) (fun _ => [])
      (fun _ => []) 0 1 none).2 c4table "2025-01-09" "2025-01-08"
     (by decide) (by decide)⟩

/-- C8 (code bug exhibit): with the empty-string date, the code normalizes
to the first `datetime.today()` reading `now1`, but the step-back guard
compares against a second, later reading `now2`.  Whenever the two clock
reads differ (here `now1 = 0`, `now2 = 1`, one microsecond apart), the
equality fails, no step-back happens, and the first date examined is today
itself (timestamp `now1`, day `0`) — not today minus one day as the spec
and the code's own comment intend. -/
theorem load_imoex_list_first_tried_is_today :
    (load_imoex_list false (fun _ => false) (fun _ => []) (fun _ => ["X"])
        0 1 none).firstTriedDate = 0 ∧
    (load_imoex_list false (fun _ => false) (fun _ => []) (fun _ => ["X"])
        0 1 none).resolvedDay = 0 ∧
    (load_imoex_list false (fun _ => false) (fun _ => []) (fun _ => ["X"])
        0 1 none).tickers = ["X"] := by
  refine ⟨rfl, ?_, rfl⟩
  show dayOf 0 = 0
  rfl

/-- Upstream JSON payload of the candles endpoint:
`data["candles"]["columns"]` and `data["candles"]["data"]`. -/
structure KJson where
  cols : List String
  rows : List (List Rat)
deriving DecidableEq, Repr

/-- Observable outcome of `get_kline`: how many HTTP attempts were made,
whether the terminal-failure error (with the request URL) was logged, and
the returned dataframe as columns plus rows. -/
structure KlineResult where
  attemptsMade : Nat
  loggedError : Bool
  columns : List String
  rows : List (List Rat)
deriving DecidableEq, Repr

/-- A Python call that either returns normally or raises. -/
inductive PyResult (α : Type) where
  | ok (a : α)
  | exn
deriving DecidableEq, Repr

/-- The normalized candle column list
`["begin", "open", "high", "low", "close", "volume"]` of `get_kline`. -/
def KLINE_COLUMNS : List String :=
  ["begin", "open", "high", "low", "close", "volume"]

/-- The `try_cnt = 5; while try_cnt > 0` retry loop of `get_kline`
(moex_api.py:271-294): `attempt k` is the outcome of the `k`-th HTTP
request (`none` = raised).  Returns the payload if an attempt succeeded,
the number of attempts made, and the remaining budget. -/
def klineLoop (attempt : Nat → Option KJson) :
    Nat → Nat → Option KJson × Nat × Nat
  | 0, made => (none, made, 0)
  | c + 1, made =>
    match attempt made with
    | some dataJ => (some dataJ, made + 1, c + 1)
    | none => klineLoop attempt c (made + 1)

/-- Column projection `df[["begin", "open", ...]]`: select the wanted
columns by name from the upstream columns; a missing column raises. -/
def selectCols (cols : List String) (rows : List (List Rat))
    (wanted : List String) : Option (List (List Rat)) :=
  if wanted.all fun w => cols.contains w then
    some (rows.map fun row => wanted.map fun w =>
      match cols.findIdx? fun c => c = w with
      | some i => row.getD i 0
      | none => 0)
  else none

/-- Embedding of `get_kline` (moex_api.py:250-312): retry the request up to
5 times; when the budget is exhausted, log the URL and return an empty
dataframe with the `begin/open/high/low/close/volume` columns; on success,
project the upstream payload onto those same columns. -/
def get_kline (attempt : Nat → Option KJson) : PyResult KlineResult :=
  match klineLoop attempt 5 0 with
  | (none, made, _) =>
    PyResult.ok ⟨made, true, KLINE_COLUMNS, []⟩
  | (some dataJ, made, _) =>
    match selectCols dataJ.cols dataJ.rows KLINE_COLUMNS with
    | some rows2 =>
      PyResult.ok ⟨made, false, KLINE_COLUMNS, rows2⟩
    | none => PyResult.exn

lemma klineLoop_made_le (attempt : Nat → Option KJson) (c : Nat) :
    ∀ made : Nat, (klineLoop attempt c made).2.1 ≤ made + c := by
  induction c with
  | zero =>
    intro made
    exact Nat.le_refl made
  | succ c ih =>
    intro made
    rw [klineLoop]
    cases h : attempt made with
    | some d =>
      show made + 1 ≤ made + (c + 1)
      omega
    | none =>
      show (klineLoop attempt c (made + 1)).2.1 ≤ made + (c + 1)
      exact le_trans (ih (made + 1)) (by omega)

lemma klineLoop_all_fail (attempt : Nat → Option KJson) (c : Nat) :
    ∀ made : Nat, (∀ k, made ≤ k → k < made + c → attempt k = none) →
      klineLoop attempt c made = (none, made + c, 0) := by
  induction c with
  | zero =>
    intro made _
    rfl
  | succ c ih =>
    intro made h
    have e : made + 1 + c = made + (c + 1) := by omega
    rw [klineLoop, h made (Nat.le_refl made) (by omega),
      ih (made + 1) (fun k hk1 hk2 => h k (by omega) (by omega)), e]

/-- C9 counterexample: when every attempt raises, `get_kline` returns (it
does not propagate) an empty table whose first column is named `begin`, not
`date` — refuting the claimed output column set
`{date, open, high, low, close, volume}` (the `begin → date` rename happens
in the callers, not in `get_kline`). -/
theorem get_kline_begin_column_counterexample :
    get_kline (fun _ => none)
      = PyResult.ok ⟨5, true, KLINE_COLUMNS, []⟩ ∧
    "date" ∉ KLINE_COLUMNS ∧ "begin" ∈ KLINE_COLUMNS := by
  refine ⟨rfl, ?_, ?_⟩ <;> decide

/-- C9 amended: `get_kline` attempts its HTTP request at most 5 times;
whenever it returns a table, the columns are exactly
`begin/open/high/low/close/volume`; and if every attempt raises it does not
propagate the exception but logs the URL and returns the empty table with
those columns. -/
theorem get_kline_retry_and_columns (attempt : Nat → Option KJson) :
    (∀ r, get_kline attempt = PyResult.ok r →
      r.attemptsMade ≤ 5 ∧ r.columns = KLINE_COLUMNS) ∧
    ((∀ k, k < 5 → attempt k = none) →
      get_kline attempt = PyResult.ok ⟨5, true, KLINE_COLUMNS, []⟩) := by
  constructor
  · intro r hr
    have hle : (klineLoop attempt 5 0).2.1 ≤ 5 := by
      simpa using klineLoop_made_le attempt 5 0
    rcases hloop : klineLoop attempt 5 0 with ⟨p, made, left⟩
    have hmade : made ≤ 5 := by
      rw [hloop] at hle
      exact hle
    cases p with
    | none =>
      rw [get_kline, hloop] at hr
      cases hr
      exact ⟨hmade, rfl⟩
    | some d =>
      rw [get_kline, hloop] at hr
      have hr2 : (match selectCols d.cols d.rows KLINE_COLUMNS with
          | some rows2 =>
            PyResult.ok (⟨made, false, KLINE_COLUMNS, rows2⟩ : KlineResult)
          | none => PyResult.exn) = PyResult.ok r := hr
      rcases hsel : selectCols d.cols d.rows KLINE_COLUMNS with _ | rows2
      · rw [hsel] at hr2
        cases hr2
      · rw [hsel] at hr2
        cases hr2
        exact ⟨hmade, rfl⟩
  · intro hfail
    rw [get_kline, klineLoop_all_fail attempt 5 0 fun k hk1 hk2 => hfail k (by omega)]

/-- Witness for the amended C9 at the always-failing oracle. -/
theorem get_kline_retry_and_columns_witness :
    ((5 : Nat) ≤ 5 ∧
      KLINE_COLUMNS = KLINE_COLUMNS) ∧
    get_kline (fun _ => none)
      = PyResult.ok ⟨5, true, KLINE_COLUMNS, []⟩ :=
  ⟨(get_kline_retry_and_columns (fun _ => none)).1
      ⟨5, true, KLINE_COLUMNS, []⟩ rfl,
   (get_kline_retry_and_columns (fun _ => none)).2 (fun _ _ => rfl)⟩

/-- Column names of a dataframe, embedded as an ordered association list of
named columns.  The indicator dataframes store pandas float64 cells, embedded
here as `Float`; claim C10 below concerns only the column names, so no fact
about float arithmetic is relied on. -/
def dfCols (df : List (String × List Float)) : List String := df.map Prod.fst

/-- Read a column by name (`df[name]`); missing columns give the junk `[]`
(pandas would raise, the code only reads columns it knows are present). -/
def getCol (df : List (String × List Float)) (name : String) : List Float :=
  ((df.find? fun c => c.1 = name).map Prod.snd).getD []

/-- Column assignment `df[name] = v`: replace the column in place when the
name exists, otherwise append the new column at the end. -/
def setCol (df : List (String × List Float)) (name : String) (v : List Float) :
    List (String × List Float) :=
  if df.any fun c => c.1 = name then
    df.map fun c => if c.1 = name then (name, v) else c
  else df ++ [(name, v)]

/-- Column removal `df.drop(columns=[name], inplace=True)`. -/
def dropCol (df : List (String × List Float)) (name : String) :
    List (String × List Float) :=
  df.filter fun c => ¬ c.1 = name

/-- Inner join of two (date, value) column pairs on equal dates
(`pd.merge(..., on="date")`), producing (date, value_1, value_2) rows. -/
def mergeOnDate (d1 t1 d2 t2 : List Float) : List (Float × Float × Float) :=
  (d1.zip t1).foldr
    (fun p acc =>
      match (d2.zip t2).find? fun q => q.1 == p.1 with
      | some q => (p.1, p.2, q.2) :: acc
      | none => acc) []

/-- Arithmetic mean of a float list (NaN on the empty list, as in pandas). -/
def floatMean (xs : List Float) : Float :=
  xs.foldl (· + ·) 0 / (xs.length.toFloat)

/-- Pearson correlation of two aligned float samples. -/
def corrWindow (xs ys : List Float) : Float :=
  let mx := floatMean xs
  let my := floatMean ys
  let cov := ((xs.zip ys).map fun p => (p.1 - mx) * (p.2 - my)).foldl (· + ·) 0
  let vx := (xs.map fun x => (x - mx) * (x - mx)).foldl (· + ·) 0
  let vy := (ys.map fun y => (y - my) * (y - my)).foldl (· + ·) 0
  cov / (Float.sqrt vx * Float.sqrt vy)

/-- Rolling Pearson correlation over a trailing window
(`a.rolling(window=w).corr(b)`): NaN while the window is not yet full. -/
def rollingCorr (w : Nat) (xs ys : List Float) : List Float :=
  (List.range xs.length).map fun t =>
    if t + 1 < w then (0 : Float) / 0
    else corrWindow ((xs.take (t + 1)).drop (t + 1 - w))
      ((ys.take (t + 1)).drop (t + 1 - w))

/-- Embedding of `correlation` (indicators.py:123-156), with the in-place
mutation of the two argument dataframes made explicit: the result is the
returned `merged[["date", "corr"]].dropna()` frame together with the final
states of `df1` and `df2` (a `tmp` column is assigned into each, and dropped
again before returning). -/
def correlation (df1 df2 : List (String × List Float)) (window : Nat) :
    List (String × List Float) × List (String × List Float) ×
      List (String × List Float) :=
  let column := "tmp"
  let df1a := setCol df1 column
    (List.zipWith (· * ·) (getCol df1 "atr_%") (getCol df1 "direction"))
  let df2a := setCol df2 column
    (List.zipWith (· * ·) (getCol df2 "atr_%") (getCol df2 "direction"))
  let merged := mergeOnDate (getCol df1a "date") (getCol df1a column)
    (getCol df2a "date") (getCol df2a column)
  let corrCol := rollingCorr window (merged.map fun r => r.2.1)
    (merged.map fun r => r.2.2)
  let keep := (merged.zip corrCol).filter fun p => ¬ p.2.isNaN
  let result := [("date", keep.map fun p => p.1.1), ("corr", keep.map fun p => p.2)]
  (result, dropCol df1a column, dropCol df2a column)

/-- Concrete dataframes for the C10 counterexample: `c10df1` already carries
a `tmp` column in addition to date, atr_% and direction. -/
def c10df1 : List (String × List Float) :=
  [("date", []), ("atr_%", []), ("direction", []), ("tmp", [])]

/-- Second concrete dataframe for C10. -/
def c10df2 : List (String × List Float) :=
  [("date", []), ("atr_%", []), ("direction", [])]

/-- C10 counterexample: both inputs carry the date, atr_% and direction
columns, yet `correlation` removes the pre-existing `tmp` column of `df1`
(the temporary column is overwritten and then dropped), so the first
argument does not keep exactly its original columns. -/
theorem correlation_drops_preexisting_tmp :
    ("date" ∈ dfCols c10df1 ∧ "atr_%" ∈ dfCols c10df1 ∧
      "direction" ∈ dfCols c10df1) ∧
    ("date" ∈ dfCols c10df2 ∧ "atr_%" ∈ dfCols c10df2 ∧
      "direction" ∈ dfCols c10df2) ∧
    dfCols (correlation c10df1 c10df2 3).2.1 = ["date", "atr_%", "direction"] ∧
    dfCols c10df1 = ["date", "atr_%", "direction", "tmp"] ∧
    dfCols (correlation c10df1 c10df2 3).2.1 ≠ dfCols c10df1 := by
  refine ⟨⟨?_, ?_, ?_⟩, ⟨?_, ?_, ?_⟩, ?_, ?_, ?_⟩ <;> decide

lemma dropCol_setCol_fresh (df : List (String × List Float)) (name : String)
    (v : List Float) (h : name ∉ dfCols df) :
    dropCol (setCol df name v) name = df := by
  have hany : ¬ (df.any fun c => c.1 = name) = true := by
    intro hc
    rcases List.any_eq_true.mp hc with ⟨c, hcmem, hceq⟩
    exact h (List.mem_map.mpr ⟨c, hcmem, of_decide_eq_true hceq⟩)
  rw [setCol, if_neg hany, dropCol, List.filter_append]
  have h1 : List.filter (fun c => decide ¬ c.1 = name) df = df := by
    refine List.filter_eq_self.mpr fun c hc => ?_
    refine decide_eq_true fun hceq => ?_
    exact h (List.mem_map.mpr ⟨c, hc, hceq⟩)
  have h2 : List.filter (fun c => decide ¬ c.1 = name) [(name, v)] = [] := by
    simp
  rw [h1, h2, List.append_nil]

/-- C10 amended: for every pair of input dataframes that do not already
carry a column named `tmp`, `correlation` returns both arguments in exactly
their original state (in particular with exactly their original columns):
the temporary `tmp` column it assigns is dropped again before returning.  A
pre-existing `tmp` column, however, is overwritten and then dropped. -/
theorem correlation_preserves_columns (df1 df2 : List (String × List Float))
    (window : Nat) (h1 : "tmp" ∉ dfCols df1) (h2 : "tmp" ∉ dfCols df2) :
    (correlation df1 df2 window).2.1 = df1 ∧
    (correlation df1 df2 window).2.2 = df2 ∧
    dfCols (correlation df1 df2 window).2.1 = dfCols df1 ∧
    dfCols (correlation df1 df2 window).2.2 = dfCols df2 := by
  have e1 : (correlation df1 df2 window).2.1 = df1 :=
    dropCol_setCol_fresh df1 "tmp" _ h1
  have e2 : (correlation df1 df2 window).2.2 = df2 :=
    dropCol_setCol_fresh df2 "tmp" _ h2
  exact ⟨e1, e2, by rw [e1], by rw [e2]⟩

/-- Witness for the amended C10 at concrete tmp-free dataframes. -/
theorem correlation_preserves_columns_witness :
    "tmp" ∉ dfCols c10df2 ∧
    ((correlation c10df2 c10df2 3).2.1 = c10df2 ∧
     (correlation c10df2 c10df2 3).2.2 = c10df2 ∧
     dfCols (correlation c10df2 c10df2 3).2.1 = dfCols c10df2 ∧
     dfCols (correlation c10df2 c10df2 3).2.2 = dfCols c10df2) :=
  ⟨by decide,
   correlation_preserves_columns c10df2 c10df2 3 (by decide) (by decide)⟩

/-- Python dict accumulation `securities[k] = securities.get(k, 0) + v`:
update the value of an existing key in place (dict keys are unique, so at
most the first occurrence matters), or append a new key at the end. -/
def addVol : List (String × Rat) → String → Rat → List (String × Rat)
  | [], k, v => [(k, v)]
  | p :: ps, k, v =>
    if p.1 = k then (p.1, p.2 + v) :: ps else p :: addVol ps k v

/-- The volume-summing loop of `top_by_volume` (moex_api.py:566-569): fold
over the collected dates in order and over each date's ticker records in
order, accumulating per-ticker volume totals in first-encounter order. -/
def volSums (data : List (Int × List (String × OHLCV))) : List (String × Rat) :=
  data.foldl (fun acc dt => dt.2.foldl (fun a p => addVol a p.1 p.2.volume) acc) []

/-- Specification-side total: the summed volume of ticker `t` over every
session of `data`. -/
def totalVolume (data : List (Int × List (String × OHLCV))) (t : String) : Rat :=
  (data.map fun dt => ((dt.2.filter fun p => p.1 = t).map fun p => p.2.volume).sum).sum

/-- First occurrences of a key list, skipping keys already seen. -/
def firstKeys (seen : List String) : List String → List String
  | [] => []
  | k :: ks => if k ∈ seen then firstKeys seen ks else k :: firstKeys (k :: seen) ks

/-- Specification-side encounter order: each ticker at its first occurrence
when scanning the collected data date by date, record by record. -/
def encounterOrder (data : List (Int × List (String × OHLCV))) : List String :=
  firstKeys [] (data.map fun dt => dt.2.map Prod.fst).flatten

/-- First-match association lookup. -/
def alookup (l : List (String × Rat)) (t : String) : Option Rat :=
  (l.find? fun p => p.1 = t).map Prod.snd

/-- Summed values of the rows of `l` whose key is `t`. -/
def rowSum (l : List (String × Rat)) (t : String) : Rat :=
  ((l.filter fun p => p.1 = t).map fun p => p.2).sum

/-- One step of Python's stable `list.sort(key=volume, reverse=True)`:
insert an element after every already-placed element with a greater-or-equal
key, so that earlier-encountered elements stay in front on ties. -/
def insertDesc (x : String × Rat) : List (String × Rat) → List (String × Rat)
  | [] => [x]
  | y :: ys => if x.2 ≤ y.2 then y :: insertDesc x ys else x :: y :: ys

/-- Stable descending sort by the volume component (the semantics of
`securities.sort(key=lambda x: x[1], reverse=True)`). -/
def pySortDesc (l : List (String × Rat)) : List (String × Rat) :=
  l.foldl (fun acc x => insertDesc x acc) []

/-- Outcome of `top_by_volume`: the ticker list, or the type-inconsistent
error sentinel `{today: {}}` returned when validation fails. -/
inductive TopResult where
  | err
  | ok (tickers : List String)
deriving DecidableEq, Repr

/-- Embedding of `top_by_volume` (moex_api.py:550-577): validate the
arguments (negative `days_back` raises and is caught, returning the error
sentinel), normalize the date, collect history with the hard-coded
`days_back=3` lookback (the caller's `days_back` is not used for the
collection), sum per-ticker volumes, sort stably by descending total, and
truncate to `top_cnt` (defaulting to the full list). -/
def top_by_volume (fetch : Int → List (String × OHLCV)) (now : Int)
    (input : Option Int) (days_back : Int) (top_cnt : Option Nat) : TopResult :=
  if days_back < 0 then TopResult.err
  else
    let date := format_date now input
    let data := (load_available_history_imoex_list_with_prices_to fetch date 3).1
    let securities := volSums data
    let sorted := pySortDesc securities
    let cnt := match top_cnt with
      | none => securities.length
      | some k => min k securities.length
    TopResult.ok ((sorted.take cnt).map Prod.fst)

lemma alookup_nil (t : String) : alookup [] t = none := rfl

lemma alookup_cons (p : String × Rat) (l : List (String × Rat)) (t : String) :
    alookup (p :: l) t = if p.1 = t then some p.2 else alookup l t := by
  by_cases h : p.1 = t
  · rw [if_pos h]
    unfold alookup
    rw [List.find?_cons_of_pos _ (by simpa using h)]
    rfl
  · rw [if_neg h]
    unfold alookup
    rw [List.find?_cons_of_neg _ (by simpa using h)]

lemma alookup_isSome_iff (l : List (String × Rat)) (t : String) :
    (alookup l t).isSome ↔ t ∈ l.map Prod.fst := by
  induction l with
  | nil => simp [alookup_nil]
  | cons p ps ih =>
    rw [alookup_cons]
    by_cases h : p.1 = t
    · simp [h]
    · simp only [if_neg h, List.map_cons, List.mem_cons, ih]
      constructor
      · intro h1
        exact Or.inr h1
      · intro h1
        rcases h1 with h1 | h1
        · exact absurd h1.symm h
        · exact h1

lemma alookup_eq_none (l : List (String × Rat)) (t : String)
    (h : t ∉ l.map Prod.fst) : alookup l t = none := by
  cases ha : alookup l t with
  | none => rfl
  | some v =>
    exact absurd ((alookup_isSome_iff l t).mp (by rw [ha]; rfl)) h

lemma addVol_lookup (acc : List (String × Rat)) (k : String) (v : Rat)
    (t : String) :
    alookup (addVol acc k v) t =
      if t = k then some ((alookup acc k).getD 0 + v) else alookup acc t := by
  induction acc with
  | nil =>
    by_cases h : t = k
    · subst h
      simp [addVol, alookup_cons, alookup_nil]
    · simp [addVol, alookup_cons, alookup_nil, h, Ne.symm h]
  | cons p ps ih =>
    by_cases hp : p.1 = k
    · by_cases h : t = k
      · subst h
        simp [addVol, hp, alookup_cons]
      · simp [addVol, hp, alookup_cons, h, Ne.symm h]
    · by_cases h : t = k
      · subst h
        simp [addVol, hp, alookup_cons, ih]
      · simp [addVol, hp, alookup_cons, ih, h]

lemma addVol_keys (acc : List (String × Rat)) (k : String) (v : Rat) :
    (addVol acc k v).map Prod.fst =
      if k ∈ acc.map Prod.fst then acc.map Prod.fst
      else acc.map Prod.fst ++ [k] := by
  induction acc with
  | nil => simp [addVol]
  | cons p ps ih =>
    rw [addVol]
    by_cases hp : p.1 = k
    · rw [if_pos hp]
      simp [hp]
    · rw [if_neg hp, List.map_cons, ih, List.map_cons]
      by_cases h : k ∈ ps.map Prod.fst
      · rw [if_pos h, if_pos (List.mem_cons_of_mem _ h)]
      · rw [if_neg h, if_neg ?_, List.cons_append]
        intro hmem
        rcases List.mem_cons.mp hmem with h1 | h1
        · exact hp h1.symm
        · exact h h1

lemma mem_addVol_keys (acc : List (String × Rat)) (k : String) (v : Rat)
    (t : String) :
    t ∈ (addVol acc k v).map Prod.fst ↔ t = k ∨ t ∈ acc.map Prod.fst := by
  rw [addVol_keys]
  by_cases h : k ∈ acc.map Prod.fst
  · rw [if_pos h]
    constructor
    · exact Or.inr
    · rintro (rfl | hm)
      · exact h
      · exact hm
  · rw [if_neg h]
    simp only [List.mem_append, List.mem_singleton]
    tauto

lemma rowSum_cons (q : String × Rat) (qs : List (String × Rat)) (t : String) :
    rowSum (q :: qs) t = if q.1 = t then q.2 + rowSum qs t else rowSum qs t := by
  by_cases h : q.1 = t
  · simp [rowSum, List.filter_cons, h]
  · simp [rowSum, List.filter_cons, h]

lemma rowSum_append (l1 l2 : List (String × Rat)) (t : String) :
    rowSum (l1 ++ l2) t = rowSum l1 t + rowSum l2 t := by
  simp [rowSum, List.filter_append, List.sum_append]

lemma scan_lookup (rows : List (String × Rat)) :
    ∀ (acc : List (String × Rat)) (t : String),
      alookup (rows.foldl (fun a q => addVol a q.1 q.2) acc) t =
        if t ∈ rows.map Prod.fst ∨ t ∈ acc.map Prod.fst
        then some ((alookup acc t).getD 0 + rowSum rows t) else none := by
  induction rows with
  | nil =>
    intro acc t
    simp only [List.foldl_nil, List.map_nil, List.not_mem_nil, false_or]
    by_cases h : t ∈ acc.map Prod.fst
    · rw [if_pos h]
      rcases Option.isSome_iff_exists.mp ((alookup_isSome_iff acc t).mpr h) with ⟨v, hv⟩
      rw [hv]
      simp [rowSum]
    · rw [if_neg h, alookup_eq_none acc t h]
  | cons q qs ih =>
    intro acc t
    rw [List.foldl_cons, ih]
    by_cases htq : t = q.1
    · have hmem : t ∈ (addVol acc q.1 q.2).map Prod.fst :=
        (mem_addVol_keys _ _ _ _).mpr (Or.inl htq)
      rw [if_pos (Or.inr hmem), if_pos (Or.inl (by simp [htq])), addVol_lookup,
        if_pos htq, rowSum_cons, if_pos htq.symm]
      simp [htq, add_assoc]
    · have hcnd : (t ∈ qs.map Prod.fst ∨ t ∈ (addVol acc q.1 q.2).map Prod.fst)
          ↔ (t ∈ (q :: qs).map Prod.fst ∨ t ∈ acc.map Prod.fst) := by
        rw [mem_addVol_keys, List.map_cons, List.mem_cons]
        tauto
      by_cases hc : t ∈ (q :: qs).map Prod.fst ∨ t ∈ acc.map Prod.fst
      · rw [if_pos (hcnd.mpr hc), if_pos hc, addVol_lookup, if_neg htq,
          rowSum_cons, if_neg (fun h => htq h.symm)]
      · rw [if_neg (fun hh => hc (hcnd.mp hh)), if_neg hc]

lemma firstKeys_congr (l : List String) : ∀ s1 s2 : List String,
    (∀ x, x ∈ s1 ↔ x ∈ s2) → firstKeys s1 l = firstKeys s2 l := by
  induction l with
  | nil => intro s1 s2 _; rfl
  | cons k ks ih =>
    intro s1 s2 h
    rw [firstKeys, firstKeys]
    by_cases hk : k ∈ s1
    · rw [if_pos hk, if_pos ((h k).mp hk)]
      exact ih s1 s2 h
    · rw [if_neg hk, if_neg (fun hc => hk ((h k).mpr hc))]
      congr 1
      refine ih _ _ fun x => ?_
      simp only [List.mem_cons]
      rw [h x]

lemma scan_keys (rows : List (String × Rat)) :
    ∀ acc : List (String × Rat),
      (rows.foldl (fun a q => addVol a q.1 q.2) acc).map Prod.fst
        = acc.map Prod.fst ++ firstKeys (acc.map Prod.fst) (rows.map Prod.fst) := by
  induction rows with
  | nil =>
    intro acc
    simp [firstKeys]
  | cons q qs ih =>
    intro acc
    rw [List.foldl_cons, ih, addVol_keys, List.map_cons, firstKeys]
    by_cases h : q.1 ∈ acc.map Prod.fst
    · rw [if_pos h, if_pos h]
    · rw [if_neg h, if_neg h,
        firstKeys_congr _ (acc.map Prod.fst ++ [q.1]) (q.1 :: acc.map Prod.fst)
          (fun x => by simp [or_comm]),
        List.append_assoc]
      rfl

lemma mem_firstKeys {x : String} : ∀ (l seen : List String),
    x ∈ firstKeys seen l → x ∈ l ∧ x ∉ seen := by
  intro l
  induction l with
  | nil =>
    intro seen h
    cases h
  | cons k ks ih =>
    intro seen h
    rw [firstKeys] at h
    by_cases hk : k ∈ seen
    · rw [if_pos hk] at h
      rcases ih seen h with ⟨h1, h2⟩
      exact ⟨List.mem_cons_of_mem k h1, h2⟩
    · rw [if_neg hk] at h
      rcases List.mem_cons.mp h with h1 | h1
      · exact ⟨h1 ▸ List.mem_cons_self k ks, h1 ▸ hk⟩
      · rcases ih (k :: seen) h1 with ⟨h2, h3⟩
        exact ⟨List.mem_cons_of_mem k h2, fun hc => h3 (List.mem_cons_of_mem k hc)⟩

lemma firstKeys_nodup : ∀ (l seen : List String), (firstKeys seen l).Nodup := by
  intro l
  induction l with
  | nil => intro seen; exact List.nodup_nil
  | cons k ks ih =>
    intro seen
    rw [firstKeys]
    by_cases hk : k ∈ seen
    · rw [if_pos hk]
      exact ih seen
    · rw [if_neg hk]
      refine List.nodup_cons.mpr ⟨?_, ih (k :: seen)⟩
      intro hc
      exact (mem_firstKeys ks (k :: seen) hc).2 (List.mem_cons_self k seen)

lemma alookup_of_mem_nodup : ∀ (l : List (String × Rat)),
    (l.map Prod.fst).Nodup → ∀ p ∈ l, alookup l p.1 = some p.2 := by
  intro l
  induction l with
  | nil =>
    intro _ p hp
    cases hp
  | cons x xs ih =>
    intro hnd p hp
    rcases List.mem_cons.mp hp with h1 | h1
    · subst h1
      rw [alookup_cons, if_pos rfl]
    · rw [alookup_cons]
      have hx : x.1 ≠ p.1 := by
        intro hc
        have : x.1 ∈ xs.map Prod.fst := hc ▸ List.mem_map.mpr ⟨p, h1, rfl⟩
        exact (List.nodup_cons.mp (by simpa using hnd)).1 this
      rw [if_neg hx]
      exact ih (List.nodup_cons.mp (by simpa using hnd)).2 p h1

lemma nested_foldl_eq (data : List (Int × List (String × OHLCV))) :
    ∀ acc : List (String × Rat),
      data.foldl (fun acc dt => dt.2.foldl (fun a p => addVol a p.1 p.2.volume) acc) acc
        = ((data.map fun dt => dt.2.map fun p => (p.1, p.2.volume)).flatten).foldl
            (fun a q => addVol a q.1 q.2) acc := by
  induction data with
  | nil => intro acc; rfl
  | cons d ds ih =>
    intro acc
    rw [List.foldl_cons, List.map_cons, List.flatten_cons, List.foldl_append,
      List.foldl_map, ih]

lemma rowSum_map_volume (l : List (String × OHLCV)) (t : String) :
    rowSum (l.map fun p => (p.1, p.2.volume)) t
      = ((l.filter fun p => p.1 = t).map fun p => p.2.volume).sum := by
  induction l with
  | nil => rfl
  | cons x xs ih =>
    rw [List.map_cons, rowSum_cons]
    by_cases h : x.1 = t
    · rw [if_pos h, List.filter_cons_of_pos (by simpa using h), List.map_cons,
        List.sum_cons, ih]
    · rw [if_neg h, List.filter_cons_of_neg (by simpa using h), ih]

lemma rowSum_flatten_eq_totalVolume (data : List (Int × List (String × OHLCV)))
    (t : String) :
    rowSum ((data.map fun dt => dt.2.map fun p => (p.1, p.2.volume)).flatten) t
      = totalVolume data t := by
  induction data with
  | nil => rfl
  | cons d ds ih =>
    rw [List.map_cons, List.flatten_cons, rowSum_append, ih, rowSum_map_volume]
    simp [totalVolume]

lemma mem_insertDesc {z x : String × Rat} : ∀ l : List (String × Rat),
    z ∈ insertDesc x l ↔ z = x ∨ z ∈ l := by
  intro l
  induction l with
  | nil => simp [insertDesc]
  | cons y ys ih =>
    rw [insertDesc]
    by_cases h : x.2 ≤ y.2
    · rw [if_pos h]
      simp only [List.mem_cons, ih]
      tauto
    · rw [if_neg h]
      simp only [List.mem_cons]

lemma insertDesc_sorted {x : String × Rat} : ∀ {l : List (String × Rat)},
    l.Pairwise (fun a b => b.2 ≤ a.2) →
    (insertDesc x l).Pairwise (fun a b => b.2 ≤ a.2) := by
  intro l
  induction l with
  | nil =>
    intro _
    simp [insertDesc]
  | cons y ys ih =>
    intro hp
    rcases List.pairwise_cons.mp hp with ⟨hy, hys⟩
    rw [insertDesc]
    by_cases h : x.2 ≤ y.2
    · rw [if_pos h]
      refine List.pairwise_cons.mpr ⟨?_, ih hys⟩
      intro b hb
      rcases (mem_insertDesc ys).mp hb with rfl | hbm
      · exact h
      · exact hy b hbm
    · rw [if_neg h]
      push_neg at h
      refine List.pairwise_cons.mpr ⟨?_, hp⟩
      intro b hb
      rcases List.mem_cons.mp hb with rfl | hbm
      · exact le_of_lt h
      · exact le_trans (hy b hbm) (le_of_lt h)

lemma foldl_insert_sorted : ∀ (l acc : List (String × Rat)),
    acc.Pairwise (fun a b => b.2 ≤ a.2) →
    (l.foldl (fun a x => insertDesc x a) acc).Pairwise (fun a b => b.2 ≤ a.2) := by
  intro l
  induction l with
  | nil => exact fun acc h => h
  | cons x xs ih =>
    intro acc hacc
    rw [List.foldl_cons]
    exact ih _ (insertDesc_sorted hacc)

lemma pySortDesc_sorted (l : List (String × Rat)) :
    (pySortDesc l).Pairwise (fun a b => b.2 ≤ a.2) :=
  foldl_insert_sorted l [] List.Pairwise.nil

lemma insertDesc_perm (x : String × Rat) : ∀ l : List (String × Rat),
    (insertDesc x l).Perm (x :: l) := by
  intro l
  induction l with
  | nil => exact List.Perm.refl _
  | cons y ys ih =>
    rw [insertDesc]
    by_cases h : x.2 ≤ y.2
    · rw [if_pos h]
      exact (ih.cons y).trans (List.Perm.swap x y ys)
    · rw [if_neg h]

lemma foldl_insert_perm : ∀ (l acc : List (String × Rat)),
    (l.foldl (fun a x => insertDesc x a) acc).Perm (acc ++ l) := by
  intro l
  induction l with
  | nil =>
    intro acc
    rw [List.append_nil]
    exact List.Perm.refl acc
  | cons x xs ih =>
    intro acc
    rw [List.foldl_cons]
    refine (ih (insertDesc x acc)).trans ?_
    refine (((insertDesc_perm x acc).append_right xs).trans ?_)
    exact List.perm_middle.symm

lemma pySortDesc_perm (l : List (String × Rat)) : (pySortDesc l).Perm l := by
  have h := foldl_insert_perm l []
  simpa using h

lemma insertDesc_filter (x : String × Rat) (v : Rat) :
    ∀ l : List (String × Rat), l.Pairwise (fun a b => b.2 ≤ a.2) →
    (insertDesc x l).filter (fun p => p.2 = v) =
      if x.2 = v then l.filter (fun p => p.2 = v) ++ [x]
      else l.filter (fun p => p.2 = v) := by
  intro l
  induction l with
  | nil =>
    intro _
    by_cases hx : x.2 = v
    · simp [insertDesc, List.filter_cons, hx]
    · simp [insertDesc, List.filter_cons, hx]
  | cons y ys ih =>
    intro hp
    rcases List.pairwise_cons.mp hp with ⟨hy, hys⟩
    rw [insertDesc]
    by_cases h : x.2 ≤ y.2
    · rw [if_pos h]
      by_cases hx : x.2 = v <;> by_cases hy2 : y.2 = v <;>
        simp [List.filter_cons, ih hys, hx, hy2]
    · rw [if_neg h]
      push_neg at h
      by_cases hx : x.2 = v
      · have hnil : List.filter (fun p => decide (p.2 = v)) (y :: ys) = [] := by
          refine List.filter_eq_nil_iff.mpr fun z hz => ?_
          simp only [decide_eq_true_eq]
          intro hzv
          have hlt : z.2 < x.2 := by
            rcases List.mem_cons.mp hz with rfl | hzm
            · exact h
            · exact lt_of_le_of_lt (hy z hzm) h
          rw [hzv, hx] at hlt
          exact lt_irrefl v hlt
        rw [List.filter_cons, hnil]
        simp [hx]
      · simp [List.filter_cons, hx]

lemma foldl_insert_filter : ∀ (l acc : List (String × Rat)) (v : Rat),
    acc.Pairwise (fun a b => b.2 ≤ a.2) →
    (l.foldl (fun a x => insertDesc x a) acc).filter (fun p => p.2 = v)
      = acc.filter (fun p => p.2 = v) ++ l.filter (fun p => p.2 = v) := by
  intro l
  induction l with
  | nil =>
    intro acc v _
    simp
  | cons x xs ih =>
    intro acc v hacc
    rw [List.foldl_cons, ih _ v (insertDesc_sorted hacc),
      insertDesc_filter x v acc hacc, List.filter_cons]
    by_cases hx : x.2 = v
    · simp [hx, List.append_assoc]
    · simp [hx]

lemma pySortDesc_filter (l : List (String × Rat)) (v : Rat) :
    (pySortDesc l).filter (fun p => p.2 = v) = l.filter (fun p => p.2 = v) := by
  have h := foldl_insert_filter l [] v List.Pairwise.nil
  simpa using h

lemma volSums_totals (data : List (Int × List (String × OHLCV))) :
    ∀ p ∈ volSums data, p.2 = totalVolume data p.1 := by
  intro p hp
  have hveq : volSums data
      = ((data.map fun dt => dt.2.map fun p => (p.1, p.2.volume)).flatten).foldl
          (fun a q => addVol a q.1 q.2) [] := nested_foldl_eq data []
  have hnodup : ((volSums data).map Prod.fst).Nodup := by
    rw [hveq, scan_keys]
    simpa using firstKeys_nodup
      (((data.map fun dt => dt.2.map fun p => (p.1, p.2.volume)).flatten).map
        Prod.fst) []
  have hlk : alookup (volSums data) p.1 = some p.2 :=
    alookup_of_mem_nodup (volSums data) hnodup p hp
  have hmem : p.1 ∈ ((data.map fun dt => dt.2.map fun p =>
      (p.1, p.2.volume)).flatten).map Prod.fst ∨
      p.1 ∈ ([] : List (String × Rat)).map Prod.fst := by
    by_contra hc
    rw [hveq, scan_lookup, if_neg hc] at hlk
    cases hlk
  rw [hveq, scan_lookup, if_pos hmem] at hlk
  injection hlk with hlk
  rw [← hlk, alookup_nil]
  simp [rowSum_flatten_eq_totalVolume]

lemma map_fst_volume (l : List (String × OHLCV)) :
    (l.map fun p => (p.1, p.2.volume)).map Prod.fst = l.map Prod.fst := by
  rw [List.map_map]
  rfl

lemma keys_flatten (data : List (Int × List (String × OHLCV))) :
    ((data.map fun dt => dt.2.map fun p => (p.1, p.2.volume)).flatten).map
        Prod.fst
      = (data.map fun dt => dt.2.map Prod.fst).flatten := by
  induction data with
  | nil => rfl
  | cons d ds ih =>
    rw [List.map_cons, List.map_cons, List.flatten_cons, List.flatten_cons,
      List.map_append, ih, map_fst_volume]

lemma volSums_keys (data : List (Int × List (String × OHLCV))) :
    (volSums data).map Prod.fst = encounterOrder data := by
  have hveq : volSums data
      = ((data.map fun dt => dt.2.map fun p => (p.1, p.2.volume)).flatten).foldl
          (fun a q => addVol a q.1 q.2) [] := nested_foldl_eq data []
  rw [hveq, scan_keys]
  simp only [List.map_nil, List.nil_append]
  rw [encounterOrder]
  congr 1
  exact keys_flatten data

/-- The history that `top_by_volume` actually collects: a backward
collection from the normalized date with the hard-coded `days_back = 3`. -/
def topData (fetch : Int → List (String × OHLCV)) (now : Int)
    (input : Option Int) : List (Int × List (String × OHLCV)) :=
  (load_available_history_imoex_list_with_prices_to fetch
    (format_date now input) 3).1

/-- C7: for every valid date and non-negative `days_back`, `top_by_volume`
collects history with a fixed 3-session lookback (its result does not depend
on the `days_back` argument), sums each ticker's volume across all collected
sessions (each entry of the accumulated totals equals that ticker's summed
volume, and the accumulated keys are in first-encounter order), sorts
descending by summed volume with a stable sort (the sorted list is a sorted
permutation of the totals whose equal-volume runs keep the encounter order),
and truncates to `top_cnt`, defaulting to the full list when `top_cnt` is
not given. -/
theorem top_by_volume_spec (fetch : Int → List (String × OHLCV)) (now : Int)
    (input : Option Int) (days_back : Int) (top_cnt : Option Nat)
    (hdb : 0 ≤ days_back) :
    ∃ l, top_by_volume fetch now input days_back top_cnt = TopResult.ok l ∧
      (∀ db2 : Int, 0 ≤ db2 →
        top_by_volume fetch now input db2 top_cnt = TopResult.ok l) ∧
      (∀ p ∈ volSums (topData fetch now input),
        p.2 = totalVolume (topData fetch now input) p.1) ∧
      (volSums (topData fetch now input)).map Prod.fst
        = encounterOrder (topData fetch now input) ∧
      (pySortDesc (volSums (topData fetch now input))).Pairwise
        (fun a b => b.2 ≤ a.2) ∧
      (pySortDesc (volSums (topData fetch now input))).Perm
        (volSums (topData fetch now input)) ∧
      (∀ v : Rat,
        (pySortDesc (volSums (topData fetch now input))).filter
            (fun p => p.2 = v)
          = (volSums (topData fetch now input)).filter (fun p => p.2 = v)) ∧
      l = ((pySortDesc (volSums (topData fetch now input))).map Prod.fst).take
          (match top_cnt with
           | none => (volSums (topData fetch now input)).length
           | some k => min k (volSums (topData fetch now input)).length) ∧
      (top_cnt = none →
        l = (pySortDesc (volSums (topData fetch now input))).map Prod.fst) := by
  refine ⟨((pySortDesc (volSums (topData fetch now input))).take
      (match top_cnt with
       | none => (volSums (topData fetch now input)).length
       | some k => min k (volSums (topData fetch now input)).length)).map
        Prod.fst, ?_, ?_, ?_, ?_, ?_, ?_, ?_, ?_, ?_⟩
  · simp only [top_by_volume]
    rw [if_neg (not_lt.mpr hdb)]
    rfl
  · intro db2 h2
    simp only [top_by_volume]
    rw [if_neg (not_lt.mpr h2)]
    rfl
  · exact volSums_totals _
  · exact volSums_keys _
  · exact pySortDesc_sorted _
  · exact pySortDesc_perm _
  · intro v
    exact pySortDesc_filter _ v
  · exact List.map_take _ _ _
  · intro h
    subst h
    show ((pySortDesc (volSums (topData fetch now input))).take
        (volSums (topData fetch now input)).length).map Prod.fst
      = (pySortDesc (volSums (topData fetch now input))).map Prod.fst
    rw [List.take_of_length_le
      (le_of_eq (pySortDesc_perm (volSums (topData fetch now input))).length_eq)]

/-- Concrete per-day oracle used to witness C7: two tickers on day 0. -/
def c7fetch (d : Int) : List (String × OHLCV) :=
  if d = 0 then [("A", ⟨1, 1, 1, 1, 5⟩), ("B", ⟨1, 1, 1, 1, 7⟩)] else []

/-- Witness for C7 at a concrete oracle, date and arguments. -/
theorem top_by_volume_spec_witness :
    (0 : Int) ≤ 0 ∧
    (∃ l, top_by_volume c7fetch 0 none 0 none = TopResult.ok l ∧
      (∀ db2 : Int, 0 ≤ db2 →
        top_by_volume c7fetch 0 none db2 none = TopResult.ok l) ∧
      (∀ p ∈ volSums (topData c7fetch 0 none),
        p.2 = totalVolume (topData c7fetch 0 none) p.1) ∧
      (volSums (topData c7fetch 0 none)).map Prod.fst
        = encounterOrder (topData c7fetch 0 none) ∧
      (pySortDesc (volSums (topData c7fetch 0 none))).Pairwise
        (fun a b => b.2 ≤ a.2) ∧
      (pySortDesc (volSums (topData c7fetch 0 none))).Perm
        (volSums (topData c7fetch 0 none)) ∧
      (∀ v : Rat,
        (pySortDesc (volSums (topData c7fetch 0 none))).filter
            (fun p => p.2 = v)
          = (volSums (topData c7fetch 0 none)).filter (fun p => p.2 = v)) ∧
      l = ((pySortDesc (volSums (topData c7fetch 0 none))).map Prod.fst).take
          (match (none : Option Nat) with
           | none => (volSums (topData c7fetch 0 none)).length
           | some k => min k (volSums (topData c7fetch 0 none)).length) ∧
      ((none : Option Nat) = none →
        l = (pySortDesc (volSums (topData c7fetch 0 none))).map Prod.fst)) :=
  ⟨by decide, top_by_volume_spec c7fetch 0 none 0 none (by decide)⟩
